import Mathlib

/-!
Verification of the repository content acquisition pipeline of
`repo-to-prompt` (server/routes.ts, api/process-repository.ts and the
scraping variant).  File contents and paths are modelled as `List Char`
(`Str`); the network is modelled as an explicit oracle record so that the
pure control flow of the source can be stated and proved.
-/

/-- Character-list strings, the carrier for all paths and file contents. -/
abbrev Str := List Char

/-- JavaScript `content.split('\n')`: splits on every newline; the empty
string yields one empty element. -/
def splitNl : Str → List Str
  | [] => [[]]
  | c :: rest =>
    if c = '\n' then [] :: splitNl rest
    else
      match splitNl rest with
      | [] => [[c]]
      | l :: ls => (c :: l) :: ls

/-- JavaScript `Array.prototype.join('\n')`. -/
def joinNl : List Str → Str
  | [] => []
  | [l] => l
  | l :: l' :: ls => l ++ '\n' :: joinNl (l' :: ls)

/-- Substring containment, JavaScript `String.prototype.includes`. -/
def containsSub (s pat : Str) : Bool :=
  match s with
  | [] => pat.isEmpty
  | _ :: rest => pat.isPrefixOf s || containsSub rest pat

/-- Binary-extension denylist of `server/routes.ts` (`isBinaryFile`). -/
def binaryExtensions : List Str :=
  ([".png", ".jpg", ".jpeg", ".gif", ".bmp", ".ico", ".webp",
    ".pdf", ".doc", ".docx", ".ppt", ".pptx", ".xls", ".xlsx",
    ".zip", ".rar", ".tar", ".gz", ".7z",
    ".mp3", ".mp4", ".wav", ".avi", ".mov", ".flv",
    ".exe", ".dll", ".so", ".dylib",
    ".bin", ".dat"] : List String).map String.data

/-- Suffix of `s` starting at the last `'.'`, `none` when `s` has no dot:
`filename.substring(filename.lastIndexOf('.'))`, with `none` standing for
the `lastIndexOf = -1` case. -/
def fromLastDot : Str → Option Str
  | [] => none
  | c :: rest =>
    match fromLastDot rest with
    | some t => some t
    | none => if c = '.' then some (c :: rest) else none

/-- `isBinaryFile` of server/routes.ts: lowercased
`substring(lastIndexOf('.'))` membership in the denylist; when there is no
dot JavaScript clamps `substring(-1)` to the whole string. -/
def isBinaryFile (filename : Str) : Bool :=
  let ext := ((fromLastDot filename).getD filename).map Char.toLower
  decide (ext ∈ binaryExtensions)

/-- Predicate for characters other than the dot. -/
def notDot (c : Char) : Bool := c ≠ '.'

/-- Modelled from the spec (§4.1): the extension is the text from the last
`'.'` on, computed here independently via reverse/takeWhile; a path with no
dot has no extension. -/
def specExtension (s : Str) : Option Str :=
  if '.' ∈ s then some ('.' :: (s.reverse.takeWhile notDot).reverse)
  else none

/-- Modelled from the spec (§4.1): binary iff the case-insensitive
extension is in the denylist; missing extension means text. -/
def isBinarySpec (s : Str) : Bool :=
  match specExtension s with
  | none => false
  | some e => decide (e.map Char.toLower ∈ binaryExtensions)

/-- An HTTP response as the code observes it: a status and, when the
payload was a string, its text (`none` models a non-string payload). -/
structure Resp where
  status : Nat
  textBody : Option Str
deriving DecidableEq

/-- One entry of the GitHub tree API answer. -/
structure TreeItem where
  typ : Str
  path : Str

/-- One link extracted from a scraped directory page. -/
structure DirItem where
  path : Str
  isDir : Bool

/-- The network oracle: every request the pipeline can issue, as a pure
function; `none` models a thrown transport error (timeout, DNS, ...). -/
structure Net where
  landing : Option Resp
  probeReadme : Str → Option Nat
  apiTree : Option (Nat × Option (List TreeItem))
  branchPage : Str → Option Nat
  pages : Str → Str → Option (List DirItem)
  raw : Str → Str → Option Resp
  probeFile : Str → Str → Option Nat

/-- Per-file result of `getFileContent`. -/
structure FileResult where
  content : Str
  lineCount : Nat
deriving DecidableEq

/-- The `{content, fileCount, lineCount}` aggregate. -/
structure Agg where
  content : Str
  fileCount : Nat
  lineCount : Nat
deriving DecidableEq

/-- `# /${path}\n`, the path header every per-file record starts with. -/
def fileHeader (p : Str) : Str := ("# /").data ++ p ++ ("\n").data

/-- Placeholder for a 200 response whose payload is not a string. -/
def binaryPlaceholder (p : Str) : Str :=
  fileHeader p ++ ("[Binary file - content not displayed]\n\n").data

/-- Placeholder when no candidate branch yielded a 200 response. -/
def notRetrievedPlaceholder (p : Str) : Str :=
  fileHeader p ++ ("[File content could not be retrieved]\n\n").data

/-- Successful-fetch formatting of `getFileContent` (server/routes.ts):
truncation to 2000 lines with a notice, `lineCount` from the original. -/
def formatFetched (p content : Str) : FileResult :=
  let lines := splitNl content
  if 2000 < lines.length then
    ⟨fileHeader p ++ joinNl (lines.take 2000) ++ ("\n").data ++
      ("\n# File truncated: showing 2000 of ").data ++
      (Nat.repr lines.length).data ++ (" lines\n").data ++ ("\n").data,
      lines.length⟩
  else
    ⟨fileHeader p ++ content ++ ("\n").data ++ ("\n").data, lines.length⟩

/-- The branch loop of `getFileContent`: first branch answering 200 wins;
a thrown request or a non-200 status falls through to the next branch. -/
def tryBranches (raw : Str → Str → Option Resp) (p : Str) : List Str → FileResult
  | [] => ⟨notRetrievedPlaceholder p, 1⟩
  | b :: rest =>
    match raw b p with
    | none => tryBranches raw p rest
    | some r =>
      if r.status = 200 then
        match r.textBody with
        | none => ⟨binaryPlaceholder p, 1⟩
        | some content => formatFetched p content
      else tryBranches raw p rest

/-- Branch fallbacks used when `getFileContent` receives no branch. -/
def branchFallbacks : List Str :=
  (["main", "master", "develop", "development"] : List String).map String.data

/-- `getFileContent` of server/routes.ts. -/
def getFileContent (raw : Str → Str → Option Resp) (p : Str)
    (branch : Option Str) : FileResult :=
  tryBranches raw p (match branch with | some b => [b] | none => branchFallbacks)

/-- One iteration of the `FetchAll` loop of `getRepositoryContent`:
binary paths are skipped, a fetched record with non-empty content is
appended and counted. -/
def processPath (raw : Str → Str → Option Resp) (branch : Str)
    (agg : Agg) (p : Str) : Agg :=
  if isBinaryFile p then agg
  else
    let fr := getFileContent raw p (some branch)
    if fr.content.isEmpty then agg
    else ⟨agg.content ++ fr.content, agg.fileCount + 1, agg.lineCount + fr.lineCount⟩

/-- The `FetchAll` loop over the deduplicated file list. -/
def fetchAll (raw : Str → Str → Option Resp) (branch : Str)
    (files : List Str) : Agg :=
  files.foldl (processPath raw branch) ⟨[], 0, 0⟩

/-- `[...new Set(fileTree)]`: deduplication keeping first occurrences. -/
def dedupFirst (l : List Str) : List Str :=
  l.foldl (fun acc p => if p ∈ acc then acc else acc ++ [p]) []

/-- Outcome of inspecting the repository landing page for a default-branch
indicator; `errored` covers a thrown request and a non-string payload. -/
inductive LandingOutcome
  | errored
  | found (b : Str)
  | inconclusive

/-- The landing-page part shared by both branch resolvers of
server/routes.ts. -/
def inspectLanding (net : Net) : LandingOutcome :=
  match net.landing with
  | none => LandingOutcome.errored
  | some r =>
    if r.status = 200 then
      match r.textBody with
      | none => LandingOutcome.errored
      | some html =>
        if containsSub html (("tree/master").data) ||
            containsSub html (("\"master\"").data) then
          LandingOutcome.found (("master").data)
        else if containsSub html (("tree/main").data) ||
            containsSub html (("\"main\"").data) then
          LandingOutcome.found (("main").data)
        else LandingOutcome.inconclusive
    else LandingOutcome.inconclusive

/-- Probe loop of the branch resolvers: first candidate answering 200,
with main as the final default. -/
def probeFirst (probe : Str → Option Nat) : List Str → Str
  | [] => ("main").data
  | b :: rest => if probe b = some 200 then b else probeFirst probe rest

/-- Candidate branches of the resolver inside `getRepositoryContent`. -/
def branchCandidates : List Str :=
  (["main", "master", "develop"] : List String).map String.data

/-- `determineDefaultBranch` inside `getRepositoryContent`
(server/routes.ts lines 105-140). -/
def determineDefaultBranch (net : Net) : Str :=
  match inspectLanding net with
  | LandingOutcome.errored => ("main").data
  | LandingOutcome.found b => b
  | LandingOutcome.inconclusive => probeFirst net.probeReadme branchCandidates

/-- Candidate branches of the resolver inside
`getRepositoryFileStructure`. -/
def structureBranchCandidates : List Str :=
  (["main", "master", "develop", "development"] : List String).map String.data

/-- `determineDefaultBranch` inside `getRepositoryFileStructure`
(server/routes.ts lines 216-261): probes `tree/<branch>` pages. -/
def structureDefaultBranch (net : Net) : Str :=
  match inspectLanding net with
  | LandingOutcome.errored => ("main").data
  | LandingOutcome.found b => b
  | LandingOutcome.inconclusive => probeFirst net.branchPage structureBranchCandidates

/-- State of the scraping walk: visited directory keys and found files. -/
structure ScrapeSt where
  visited : List Str
  files : List Str
deriving DecidableEq

mutual

/-- One directory visit of the scraping walk (`processDirectory` of
server/routes.ts with bound 5, `scrapeRepositoryStructure` of the scraping
variant with bound 20): depth guard, visited-set guard keyed by path, then
the page fetch and its extracted links. -/
def scrapeDir (pages : Str → Option (List DirItem)) (isBin : Str → Bool)
    (maxDepth depth : Nat) (p : Str) (st : ScrapeSt) : ScrapeSt :=
  if maxDepth < depth then st
  else if p ∈ st.visited then st
  else
    match pages p with
    | none => ⟨p :: st.visited, st.files⟩
    | some items =>
      scrapeItems pages isBin maxDepth (depth + 1) items ⟨p :: st.visited, st.files⟩
termination_by (maxDepth + 1 - depth, 0, 0)

/-- The loop over one scraped page's links: subdirectories recurse, files
are appended when non-binary and not already present. -/
def scrapeItems (pages : Str → Option (List DirItem)) (isBin : Str → Bool)
    (maxDepth depth : Nat) (items : List DirItem) (st : ScrapeSt) : ScrapeSt :=
  match items with
  | [] => st
  | it :: rest =>
    let st' :=
      if it.isDir then scrapeDir pages isBin maxDepth depth it.path st
      else if isBin it.path = false ∧ it.path ∉ st.files then
        ⟨st.visited, st.files ++ [it.path]⟩
      else st
    scrapeItems pages isBin maxDepth depth rest st'
termination_by (maxDepth + 1 - depth, 1, items.length)

end

/-- Binary-extension denylist of the scraping variant (larger: svg, fonts). -/
def binaryExtensionsScrape : List Str :=
  ([".png", ".jpg", ".jpeg", ".gif", ".bmp", ".ico", ".webp", ".svg",
    ".pdf", ".doc", ".docx", ".ppt", ".pptx", ".xls", ".xlsx",
    ".zip", ".rar", ".tar", ".gz", ".7z",
    ".mp3", ".mp4", ".wav", ".avi", ".mov", ".flv",
    ".exe", ".dll", ".so", ".dylib",
    ".bin", ".dat", ".woff", ".woff2", ".ttf", ".eot"] : List String).map String.data

/-- `isBinaryFile` of the scraping variant: same mechanism, larger list. -/
def isBinaryFileScrape (filename : Str) : Bool :=
  let ext := ((fromLastDot filename).getD filename).map Char.toLower
  decide (ext ∈ binaryExtensionsScrape)

/-- `scrapeRepositoryStructure` of the scraping variant: the recursive
walk from the root with depth bound 20 and an initially empty visited set
and file list. -/
def scrapeRepositoryStructure (pages : Str → Option (List DirItem)) : List Str :=
  (scrapeDir pages isBinaryFileScrape 20 0 [] ⟨[], []⟩).files

/-- The discovery strategies, as observable invocations. -/
inductive Strategy
  | apiQuery
  | scraping
  | probe
  | cloneWalk
deriving DecidableEq

/-- Files produced by the structured tree query (GitHub API phase of
`getRepositoryFileStructure`): blob entries with a non-empty path that is
not binary, kept only when the response status is 200 and has a tree. -/
def apiFiles (net : Net) : List Str :=
  match net.apiTree with
  | some (status, some tree) =>
    if status = 200 then
      (tree.filter (fun it =>
        it.typ == ("blob").data && !it.path.isEmpty && !isBinaryFile it.path)).map TreeItem.path
    else []
  | _ => []

/-- The fixed common-file list probed as a last resort. -/
def commonFiles : List Str :=
  (["README.md", "package.json", "LICENSE", ".gitignore",
    "index.js", "index.ts", "index.html",
    "src/index.js", "src/index.ts", "src/App.js", "src/App.tsx"] : List String).map String.data

/-- `maxFiles = 100` cap applied after the scraping/probing phases. -/
def capFiles (l : List Str) : List Str :=
  if 100 < l.length then l.take 100 else l

/-- `getRepositoryFileStructure` of server/routes.ts, instrumented with
the list of discovery strategies actually invoked: the API tree query is
attempted first and accepted when non-empty (returned uncapped); otherwise
the scraping walk runs on the resolved branch; if it finds nothing the
common files are probed directly; the 100-file cap applies at the end. -/
def getRepositoryFileStructureT (net : Net) : List Str × List Strategy :=
  let afiles := apiFiles net
  if afiles.isEmpty then
    let b := structureDefaultBranch net
    let sfiles := (scrapeDir (net.pages b) isBinaryFile 5 0 [] ⟨[], []⟩).files
    if sfiles.isEmpty then
      let pfiles := commonFiles.filter (fun f => net.probeFile b f == some 200)
      (capFiles pfiles, [Strategy.apiQuery, Strategy.scraping, Strategy.probe])
    else (capFiles sfiles, [Strategy.apiQuery, Strategy.scraping])
  else (afiles, [Strategy.apiQuery])

/-- The discovered file list (the instrumentation projected away). -/
def getRepositoryFileStructure (net : Net) : List Str :=
  (getRepositoryFileStructureT net).1

/-- The synthetic fallback content of `getRepositoryContent` when no file
produced any content. -/
def syntheticMsg (owner repo : Str) : Str :=
  ("# Repository: ").data ++ owner ++ ("/").data ++ repo ++
    ("\n\nThis repository couldn").data ++ ['\x27'] ++
    ("t be processed completely. Please try again later or try a different repository.\n\n").data

/-- The empty-content fallback of `getRepositoryContent`: when the
accumulated content is empty the synthetic message replaces it with
sentinel counts `fileCount = 1`, `lineCount = 3`. -/
def finishAgg (owner repo : Str) (agg : Agg) : Agg :=
  if agg.content.isEmpty then ⟨syntheticMsg owner repo, 1, 3⟩ else agg

/-- `getRepositoryContent` of server/routes.ts: resolve the branch,
discover, deduplicate, fetch every file, aggregate, and fall back to the
synthetic message when nothing was accumulated. -/
def getRepositoryContent (owner repo : Str) (net : Net) : Agg :=
  finishAgg owner repo
    (fetchAll net.raw (determineDefaultBranch net)
      (dedupFirst (getRepositoryFileStructure net)))

/-- Binary-extension denylist of api/process-repository.ts. -/
def binaryExtensionsApi : List Str :=
  ([".jpg", ".jpeg", ".png", ".gif", ".bmp", ".ico", ".webp", ".tiff", ".svg",
    ".mp3", ".mp4", ".wav", ".avi", ".mov", ".wmv", ".flv", ".ogg",
    ".pdf", ".doc", ".docx", ".xls", ".xlsx", ".ppt", ".pptx",
    ".zip", ".rar", ".7z", ".tar", ".gz", ".exe", ".dll", ".so", ".bin",
    ".dat", ".db", ".sqlite", ".class", ".jar", ".war", ".pyc", ".pyd",
    ".woff", ".woff2", ".ttf", ".eot"] : List String).map String.data

/-- Final path component (after the last `'/'`). -/
def basenameOf (p : Str) : Str :=
  (p.reverse.takeWhile (fun c => c ≠ '/')).reverse

/-- Node `path.extname`: the suffix from the last dot of the basename,
empty when there is none or when the only dot leads the basename. -/
def extname (p : Str) : Str :=
  match basenameOf p with
  | [] => []
  | _ :: rest =>
    match fromLastDot rest with
    | some t => t
    | none => []

/-- `isBinaryFile` of api/process-repository.ts (`path.extname` based). -/
def isBinaryFileApi (p : Str) : Bool :=
  decide ((extname p).map Char.toLower ∈ binaryExtensionsApi)

/-- A cloned filesystem: named files (with `none` for unreadable text)
and named directories. -/
inductive FsEntry
  | file (name : Str) (text : Option Str)
  | dir (name : Str) (entries : List FsEntry)

/-- Name of a filesystem entry. -/
def entryName : FsEntry → Str
  | FsEntry.file n _ => n
  | FsEntry.dir n _ => n

/-- The 80-character `=` separator used by the clone variant for file headers. -/
def eqSep : Str := List.replicate 80 '='

/-- Relative path of a child inside `rel`. -/
def childPath (rel name : Str) : Str :=
  if rel.isEmpty then name else rel ++ '/' :: name

/-- `processFile` of api/process-repository.ts on a regular file: `.git`
paths yield nothing, binary extensions a one-line placeholder, unreadable
files an error placeholder, and readable text a separator header plus the
content with `lineCount` from splitting on newlines. -/
def processFileM (relPath : Str) (text : Option Str) : FileResult :=
  if containsSub relPath ((".git").data) then ⟨[], 0⟩
  else if isBinaryFileApi relPath then
    ⟨("\n\n").data ++ eqSep ++ ("\n").data ++ relPath ++
      (" [BINARY FILE - CONTENT SKIPPED]\n").data ++ eqSep ++ ("\n\n").data, 1⟩
  else
    match text with
    | some c =>
      ⟨("\n\n").data ++ eqSep ++ ("\n").data ++ relPath ++ ("\n").data ++
        eqSep ++ ("\n\n").data ++ c, (splitNl c).length⟩
    | none =>
      ⟨("\n\n").data ++ eqSep ++ ("\n").data ++ relPath ++
        (" [ERROR READING FILE]\n").data ++ eqSep ++ ("\n\n").data, 1⟩

mutual

/-- Processing of one filesystem entry by the walk of the clone variant. -/
def walkEntry (rel : Str) (acc : Agg) : FsEntry → Agg
  | FsEntry.file name text =>
    let fr := processFileM (childPath rel name) text
    ⟨acc.content ++ fr.content,
      acc.fileCount + (if fr.content.isEmpty then 0 else 1),
      acc.lineCount + fr.lineCount⟩
  | FsEntry.dir name entries => walkEntriesList (childPath rel name) acc entries

/-- The directory loop of `processRepository`: `.git` entries skipped. -/
def walkEntriesList (rel : Str) (acc : Agg) : List FsEntry → Agg
  | [] => acc
  | e :: es =>
    if entryName e == (".git").data then walkEntriesList rel acc es
    else walkEntriesList rel (walkEntry rel acc e) es

end

/-- `processRepository` of api/process-repository.ts. -/
def processRepositoryM (root : List FsEntry) : Agg :=
  walkEntriesList [] ⟨[], 0, 0⟩ root

/-- The 80-character `#` separator of the metadata header. -/
def hashSep : Str := List.replicate 80 '#'

/-- `addMetadata` of api/process-repository.ts. -/
def addMetadata (url owner repo now : Str) : Str :=
  hashSep ++ ("\n# GITHUB REPOSITORY EXTRACTION\n# Repository: ").data ++
    owner ++ ("/").data ++ repo ++ ("\n# Source URL: ").data ++ url ++
    ("\n# Extracted on: ").data ++ now ++ ("\n").data ++ hashSep ++ ("\n\n").data

/-- The world the clone variant runs in: whether the shallow clone
succeeds, the cloned tree, and the extraction timestamp. -/
structure CloneWorld where
  cloneOk : Bool
  root : List FsEntry
  now : Str

/-- `extractRepository` of api/process-repository.ts: a failed clone is
rethrown (`Except.error`) to the HTTP handler; on success the metadata
header plus the walked content is returned. -/
def extractRepository (url owner repo : Str) (w : CloneWorld) : Except Str Agg :=
  if w.cloneOk then
    let r := processRepositoryM w.root
    Except.ok ⟨addMetadata url owner repo w.now ++ r.content, r.fileCount, r.lineCount⟩
  else Except.error (("Failed to clone repository").data)

/-- Merge of two aggregates: content concatenated, counts added. -/
def mergeAgg (a b : Agg) : Agg :=
  ⟨a.content ++ b.content, a.fileCount + b.fileCount, a.lineCount + b.lineCount⟩

/-- Per-file emitted content, as the spec describes the aggregate: binary
paths contribute nothing, others their fetched record. -/
def perFileContent (raw : Str → Str → Option Resp) (b p : Str) : Str :=
  if isBinaryFile p then [] else (getFileContent raw p (some b)).content

/-- Per-file reported line count of a processed (non-binary) file. -/
def perFileLines (raw : Str → Str → Option Resp) (b p : Str) : Nat :=
  if isBinaryFile p then 0 else (getFileContent raw p (some b)).lineCount

/-- A processed file that produced non-empty content. -/
def keptFile (raw : Str → Str → Option Resp) (b p : Str) : Bool :=
  !isBinaryFile p && !(getFileContent raw p (some b)).content.isEmpty

/-- Oracle on which every request fails (thrown transport error). -/
def netFail : Net :=
  ⟨none, fun _ => none, none, fun _ => none, fun _ _ => none,
    fun _ _ => none, fun _ _ => none⟩

/-- Tree answer holding a text file and a denylisted binary. -/
def treeApiOne : List TreeItem :=
  [⟨("blob").data, ("README.md").data⟩, ⟨("blob").data, ("src/a.bin").data⟩]

/-- Oracle on which the structured tree query succeeds with
`treeApiOne` and every raw fetch returns the text `hello`. -/
def netApiOne : Net :=
  ⟨none, fun _ => none, some (200, some treeApiOne), fun _ => none,
    fun _ _ => none, fun _ _ => some ⟨200, some (("hello").data)⟩,
    fun _ _ => none⟩

theorem takeWhile_append_all {α : Type} (p : α → Bool) (l l2 : List α)
    (h : ∀ x ∈ l, p x = true) : (l ++ l2).takeWhile p = l ++ l2.takeWhile p := by
  induction l with
  | nil => simp
  | cons a as ih =>
    have ha : p a = true := h a (by simp)
    simp [List.takeWhile_cons, ha, ih (fun x hx => h x (by simp [hx]))]

theorem takeWhile_append_stop {α : Type} (p : α → Bool) (l l2 : List α)
    (h : ∃ x ∈ l, p x = false) : (l ++ l2).takeWhile p = l.takeWhile p := by
  induction l with
  | nil => simp at h
  | cons a as ih =>
    by_cases hpa : p a = true
    · have hex : ∃ x ∈ as, p x = false := by
        rcases h with ⟨x, hx, hpx⟩
        rcases List.mem_cons.mp hx with hx' | hx'
        · subst hx'; rw [hpa] at hpx; cases hpx
        · exact ⟨x, hx', hpx⟩
      simp [List.takeWhile_cons, hpa, ih hex]
    · have hpa' : p a = false := by simpa using hpa
      simp [List.takeWhile_cons, hpa']

theorem fromLastDot_eq_specExtension (s : Str) :
    fromLastDot s = specExtension s := by
  induction s with
  | nil => rfl
  | cons c rest ih =>
    by_cases hdot : '.' ∈ rest
    · have he : fromLastDot rest =
          some ('.' :: (rest.reverse.takeWhile notDot).reverse) := by
        rw [ih]; unfold specExtension; rw [if_pos hdot]
      have hmem : '.' ∈ c :: rest := List.mem_cons_of_mem _ hdot
      have hx : ∃ x ∈ rest.reverse, notDot x = false :=
        ⟨'.', List.mem_reverse.mpr hdot, by simp [notDot]⟩
      have hspec : specExtension (c :: rest) =
          some ('.' :: (rest.reverse.takeWhile notDot).reverse) := by
        unfold specExtension
        rw [if_pos hmem, List.reverse_cons, takeWhile_append_stop _ _ _ hx]
      rw [hspec]
      simp only [fromLastDot, he]
    · have hnone : fromLastDot rest = none := by
        rw [ih]; unfold specExtension; rw [if_neg hdot]
      by_cases hc : c = '.'
      · subst hc
        have hall : ∀ x ∈ rest.reverse, notDot x = true := by
          intro x hx
          have : x ∈ rest := List.mem_reverse.mp hx
          have hxd : x ≠ '.' := fun h => hdot (h ▸ this)
          simp [notDot, hxd]
        have hmem : '.' ∈ '.' :: rest := by simp
        have hspec : specExtension ('.' :: rest) = some ('.' :: rest) := by
          unfold specExtension
          rw [if_pos hmem, List.reverse_cons, takeWhile_append_all _ _ _ hall]
          simp [List.takeWhile_cons, notDot]
        rw [hspec]
        simp only [fromLastDot, hnone]
        simp
      · have hmem : '.' ∉ c :: rest := by
          intro h
          rcases List.mem_cons.mp h with h' | h'
          · exact hc h'.symm
          · exact hdot h'
        have hspec : specExtension (c :: rest) = none := by
          unfold specExtension; rw [if_neg hmem]
        rw [hspec]
        simp only [fromLastDot, hnone]
        rw [if_neg hc]

theorem toLower_eq_dot {c : Char} (h : Char.toLower c = '.') : c = '.' := by
  simp only [Char.toLower] at h
  by_cases hr : c.toNat ≥ 65 ∧ c.toNat ≤ 90
  · rw [if_pos hr] at h
    exfalso
    have hv : (c.toNat + 32).isValidChar := by
      left; omega
    have ht : (Char.ofNat (c.toNat + 32)).toNat = c.toNat + 32 := by
      rw [Char.ofNat, dif_pos hv]
      rfl
    have h46 : (Char.ofNat (c.toNat + 32)).toNat = 46 := by
      rw [h]; decide
    omega
  · rw [if_neg hr] at h
    exact h

theorem map_toLower_not_in_denylist (s : Str) (hdot : '.' ∉ s) :
    decide (s.map Char.toLower ∈ binaryExtensions) = false := by
  rw [decide_eq_false_iff_not]
  intro hmem
  have hall : ∀ e ∈ binaryExtensions, '.' ∈ e := by decide
  have hdl : '.' ∈ s.map Char.toLower := hall _ hmem
  rcases List.mem_map.mp hdl with ⟨c, hc, hlc⟩
  exact hdot (toLower_eq_dot hlc ▸ hc)

theorem specExtension_eq_none (s : Str) (hdot : '.' ∉ s) :
    specExtension s = none := by
  unfold specExtension; rw [if_neg hdot]

theorem splitNl_length_pos (s : Str) : 0 < (splitNl s).length := by
  induction s with
  | nil => simp [splitNl]
  | cons c rest ih =>
    by_cases hc : c = '\n'
    · simp [splitNl, hc]
    · simp only [splitNl, if_neg hc]
      cases h : splitNl rest with
      | nil => simp
      | cons l ls => simp

theorem mem_splitNl_no_nl (s : Str) : ∀ l ∈ splitNl s, '\n' ∉ l := by
  induction s with
  | nil =>
    intro l hl
    simp [splitNl] at hl
    simp [hl]
  | cons c rest ih =>
    intro l hl
    by_cases hc : c = '\n'
    · simp only [splitNl, if_pos hc] at hl
      rcases List.mem_cons.mp hl with h | h
      · simp [h]
      · exact ih l h
    · simp only [splitNl, if_neg hc] at hl
      cases h : splitNl rest with
      | nil => exact absurd h (by have := splitNl_length_pos rest; intro he; simp [he] at this)
      | cons l0 ls =>
        rw [h] at hl
        rcases List.mem_cons.mp hl with h' | h'
        · subst h'
          intro hmem
          rcases List.mem_cons.mp hmem with h'' | h''
          · exact hc h''.symm
          · exact ih l0 (h ▸ List.mem_cons_self l0 ls) h''
        · exact ih l (h ▸ List.mem_cons_of_mem l0 h')

theorem splitNl_singleton (l : Str) (h : '\n' ∉ l) : splitNl l = [l] := by
  induction l with
  | nil => rfl
  | cons c rest ih =>
    have hc : c ≠ '\n' := fun he => h (he ▸ List.mem_cons_self c rest)
    have hrest : '\n' ∉ rest := fun hm => h (List.mem_cons_of_mem c hm)
    simp only [splitNl, if_neg hc, ih hrest]

theorem splitNl_append (l t : Str) (h : '\n' ∉ l) :
    splitNl (l ++ '\n' :: t) = l :: splitNl t := by
  induction l with
  | nil => simp [splitNl]
  | cons c rest ih =>
    have hc : c ≠ '\n' := fun he => h (he ▸ List.mem_cons_self c rest)
    have hrest : '\n' ∉ rest := fun hm => h (List.mem_cons_of_mem c hm)
    simp only [List.cons_append, splitNl, if_neg hc]
    rw [List.append_eq, ih hrest]

theorem splitNl_joinNl (ls : List Str) (hne : ls ≠ [])
    (h : ∀ l ∈ ls, '\n' ∉ l) : splitNl (joinNl ls) = ls := by
  induction ls with
  | nil => exact absurd rfl hne
  | cons l rest ih =>
    cases rest with
    | nil => exact splitNl_singleton l (h l (by simp))
    | cons l' rest' =>
      have h1 : '\n' ∉ l := h l (by simp)
      rw [joinNl, splitNl_append _ _ h1,
        ih (by simp) (fun x hx => h x (List.mem_cons_of_mem l hx))]

theorem fileHeader_append_ne_nil (p x : Str) : fileHeader p ++ x ≠ [] := by
  simp [fileHeader]

theorem formatFetched_content_ne (p c : Str) : (formatFetched p c).content ≠ [] := by
  unfold formatFetched
  by_cases h : 2000 < (splitNl c).length
  · rw [if_pos h]
    simp [fileHeader]
  · rw [if_neg h]
    simp [fileHeader]

theorem formatFetched_lineCount (p c : Str) :
    (formatFetched p c).lineCount = (splitNl c).length := by
  unfold formatFetched
  by_cases h : 2000 < (splitNl c).length
  · rw [if_pos h]
  · rw [if_neg h]

theorem tryBranches_content_ne (raw : Str → Str → Option Resp) (p : Str)
    (bs : List Str) : (tryBranches raw p bs).content ≠ [] := by
  induction bs with
  | nil => simp [tryBranches, notRetrievedPlaceholder, fileHeader]
  | cons b rest ih =>
    cases hr : raw b p with
    | none => simpa only [tryBranches, hr] using ih
    | some r =>
      simp only [tryBranches, hr]
      by_cases hs : r.status = 200
      · rw [if_pos hs]
        cases r.textBody with
        | none => simp [binaryPlaceholder, fileHeader]
        | some content => exact formatFetched_content_ne p content
      · rw [if_neg hs]; exact ih

theorem tryBranches_lineCount_pos (raw : Str → Str → Option Resp) (p : Str)
    (bs : List Str) : 1 ≤ (tryBranches raw p bs).lineCount := by
  induction bs with
  | nil => simp [tryBranches]
  | cons b rest ih =>
    cases hr : raw b p with
    | none => simpa only [tryBranches, hr] using ih
    | some r =>
      simp only [tryBranches, hr]
      by_cases hs : r.status = 200
      · rw [if_pos hs]
        cases r.textBody with
        | none => simp
        | some content =>
          rw [formatFetched_lineCount]
          exact splitNl_length_pos content
      · rw [if_neg hs]; exact ih

theorem getFileContent_content_ne (raw : Str → Str → Option Resp) (p : Str)
    (branch : Option Str) : (getFileContent raw p branch).content ≠ [] :=
  tryBranches_content_ne raw p _

theorem getFileContent_lineCount_pos (raw : Str → Str → Option Resp) (p : Str)
    (branch : Option Str) : 1 ≤ (getFileContent raw p branch).lineCount :=
  tryBranches_lineCount_pos raw p _

theorem mergeAgg_nil_left (a : Agg) : mergeAgg ⟨[], 0, 0⟩ a = a := by
  simp [mergeAgg]

theorem mergeAgg_nil_right (a : Agg) : mergeAgg a ⟨[], 0, 0⟩ = a := by
  simp [mergeAgg]

theorem mergeAgg_assoc (a b c : Agg) :
    mergeAgg (mergeAgg a b) c = mergeAgg a (mergeAgg b c) := by
  simp [mergeAgg, List.append_assoc, Nat.add_assoc]

theorem processPath_shift (raw : Str → Str → Option Resp) (b : Str)
    (agg : Agg) (p : Str) :
    processPath raw b agg p = mergeAgg agg (processPath raw b ⟨[], 0, 0⟩ p) := by
  unfold processPath
  by_cases hb : isBinaryFile p
  · simp [hb, mergeAgg_nil_right]
  · simp only [hb, if_false, Bool.false_eq_true]
    by_cases he : (getFileContent raw p (some b)).content.isEmpty
    · simp [he, mergeAgg_nil_right]
    · simp [he, mergeAgg]

theorem foldl_processPath (raw : Str → Str → Option Resp) (b : Str)
    (l : List Str) : ∀ init : Agg,
    l.foldl (processPath raw b) init = mergeAgg init (fetchAll raw b l) := by
  induction l with
  | nil => intro init; simp [fetchAll, mergeAgg_nil_right]
  | cons p rest ih =>
    intro init
    have h1 : fetchAll raw b (p :: rest) =
        mergeAgg (processPath raw b ⟨[], 0, 0⟩ p) (fetchAll raw b rest) := by
      simp only [fetchAll, List.foldl_cons]
      rw [ih (processPath raw b ⟨[], 0, 0⟩ p)]
      rfl
    simp only [List.foldl_cons]
    rw [ih (processPath raw b init p), h1, ← mergeAgg_assoc,
      ← processPath_shift]

theorem fetchAll_append (raw : Str → Str → Option Resp) (b : Str)
    (l1 l2 : List Str) :
    fetchAll raw b (l1 ++ l2) = mergeAgg (fetchAll raw b l1) (fetchAll raw b l2) := by
  simp only [fetchAll, List.foldl_append]
  rw [show (l1.foldl (processPath raw b) ⟨[], 0, 0⟩) = fetchAll raw b l1 from rfl,
    foldl_processPath]
  rfl

theorem scrapeItems_nil (pages : Str → Option (List DirItem)) (isBin : Str → Bool)
    (maxDepth depth : Nat) (st : ScrapeSt) :
    scrapeItems pages isBin maxDepth depth [] st = st := by
  rw [scrapeItems.eq_def]

theorem scrapeItems_cons (pages : Str → Option (List DirItem)) (isBin : Str → Bool)
    (maxDepth depth : Nat) (it : DirItem) (rest : List DirItem) (st : ScrapeSt) :
    scrapeItems pages isBin maxDepth depth (it :: rest) st =
      scrapeItems pages isBin maxDepth depth rest
        (if it.isDir then scrapeDir pages isBin maxDepth depth it.path st
         else if isBin it.path = false ∧ it.path ∉ st.files then
           ⟨st.visited, st.files ++ [it.path]⟩
         else st) := by
  rw [scrapeItems.eq_def]

theorem scrapeDir_depth_guard (pages : Str → Option (List DirItem)) (isBin : Str → Bool)
    (maxDepth depth : Nat) (p : Str) (st : ScrapeSt) (h : maxDepth < depth) :
    scrapeDir pages isBin maxDepth depth p st = st := by
  rw [scrapeDir.eq_def, if_pos h]

theorem scrapeDir_visited_guard (pages : Str → Option (List DirItem)) (isBin : Str → Bool)
    (maxDepth depth : Nat) (p : Str) (st : ScrapeSt) (h : p ∈ st.visited) :
    scrapeDir pages isBin maxDepth depth p st = st := by
  rw [scrapeDir.eq_def]
  by_cases hd : maxDepth < depth
  · rw [if_pos hd]
  · rw [if_neg hd, if_pos h]

theorem scrapeDir_pages_none (pages : Str → Option (List DirItem)) (isBin : Str → Bool)
    (maxDepth depth : Nat) (p : Str) (st : ScrapeSt) (hd : ¬ maxDepth < depth)
    (hv : p ∉ st.visited) (hp : pages p = none) :
    scrapeDir pages isBin maxDepth depth p st = ⟨p :: st.visited, st.files⟩ := by
  rw [scrapeDir.eq_def, if_neg hd, if_neg hv, hp]

theorem scrapeItems_nodup_aux (pages : Str → Option (List DirItem)) (isBin : Str → Bool)
    (maxDepth depth : Nat)
    (hdir : ∀ p st, st.visited.Nodup →
      (scrapeDir pages isBin maxDepth depth p st).visited.Nodup) :
    ∀ (items : List DirItem) (st : ScrapeSt), st.visited.Nodup →
      (scrapeItems pages isBin maxDepth depth items st).visited.Nodup := by
  intro items
  induction items with
  | nil => intro st h; rw [scrapeItems_nil]; exact h
  | cons it rest ih =>
    intro st h
    rw [scrapeItems_cons]
    by_cases hd : it.isDir
    · rw [if_pos hd]
      exact ih _ (hdir it.path st h)
    · rw [if_neg hd]
      by_cases hf : isBin it.path = false ∧ it.path ∉ st.files
      · rw [if_pos hf]
        exact ih _ h
      · rw [if_neg hf]
        exact ih _ h

theorem scrapeDir_nodup_gas (pages : Str → Option (List DirItem)) (isBin : Str → Bool)
    (maxDepth : Nat) :
    ∀ (k depth : Nat), maxDepth + 1 - depth ≤ k →
      ∀ (p : Str) (st : ScrapeSt), st.visited.Nodup →
        (scrapeDir pages isBin maxDepth depth p st).visited.Nodup := by
  intro k
  induction k with
  | zero =>
    intro depth hle p st h
    have hd : maxDepth < depth := by omega
    rw [scrapeDir_depth_guard _ _ _ _ _ _ hd]
    exact h
  | succ k ih =>
    intro depth hle p st h
    by_cases hd : maxDepth < depth
    · rw [scrapeDir_depth_guard _ _ _ _ _ _ hd]; exact h
    · by_cases hv : p ∈ st.visited
      · rw [scrapeDir_visited_guard _ _ _ _ _ _ hv]; exact h
      · rw [scrapeDir.eq_def, if_neg hd, if_neg hv]
        have hcons : (p :: st.visited).Nodup := List.nodup_cons.mpr ⟨hv, h⟩
        cases hp : pages p with
        | none => exact hcons
        | some items =>
          exact scrapeItems_nodup_aux pages isBin maxDepth (depth + 1)
            (fun p' st' h' => ih (depth + 1) (by omega) p' st' h')
            items ⟨p :: st.visited, st.files⟩ hcons

theorem scrapeDir_visited_nodup (pages : Str → Option (List DirItem)) (isBin : Str → Bool)
    (maxDepth depth : Nat) (p : Str) (st : ScrapeSt) (h : st.visited.Nodup) :
    (scrapeDir pages isBin maxDepth depth p st).visited.Nodup :=
  scrapeDir_nodup_gas pages isBin maxDepth (maxDepth + 1 - depth) depth le_rfl p st h

theorem scrapeItems_binfree_aux (pages : Str → Option (List DirItem)) (isBin : Str → Bool)
    (maxDepth depth : Nat)
    (hdir : ∀ p st, (∀ q ∈ st.files, isBin q = false) →
      ∀ q ∈ (scrapeDir pages isBin maxDepth depth p st).files, isBin q = false) :
    ∀ (items : List DirItem) (st : ScrapeSt),
      (∀ q ∈ st.files, isBin q = false) →
      ∀ q ∈ (scrapeItems pages isBin maxDepth depth items st).files, isBin q = false := by
  intro items
  induction items with
  | nil => intro st h; rw [scrapeItems_nil]; exact h
  | cons it rest ih =>
    intro st h
    rw [scrapeItems_cons]
    by_cases hd : it.isDir
    · rw [if_pos hd]
      exact ih _ (hdir it.path st h)
    · rw [if_neg hd]
      by_cases hf : isBin it.path = false ∧ it.path ∉ st.files
      · rw [if_pos hf]
        refine ih _ ?_
        intro q hq
        rcases List.mem_append.mp hq with hq' | hq'
        · exact h q hq'
        · rw [List.mem_singleton.mp hq']
          exact hf.1
      · rw [if_neg hf]
        exact ih _ h

theorem scrapeDir_binfree_gas (pages : Str → Option (List DirItem)) (isBin : Str → Bool)
    (maxDepth : Nat) :
    ∀ (k depth : Nat), maxDepth + 1 - depth ≤ k →
      ∀ (p : Str) (st : ScrapeSt), (∀ q ∈ st.files, isBin q = false) →
        ∀ q ∈ (scrapeDir pages isBin maxDepth depth p st).files, isBin q = false := by
  intro k
  induction k with
  | zero =>
    intro depth hle p st h
    have hd : maxDepth < depth := by omega
    rw [scrapeDir_depth_guard _ _ _ _ _ _ hd]
    exact h
  | succ k ih =>
    intro depth hle p st h
    by_cases hd : maxDepth < depth
    · rw [scrapeDir_depth_guard _ _ _ _ _ _ hd]; exact h
    · by_cases hv : p ∈ st.visited
      · rw [scrapeDir_visited_guard _ _ _ _ _ _ hv]; exact h
      · rw [scrapeDir.eq_def, if_neg hd, if_neg hv]
        cases hp : pages p with
        | none => exact h
        | some items =>
          exact scrapeItems_binfree_aux pages isBin maxDepth (depth + 1)
            (fun p' st' h' => ih (depth + 1) (by omega) p' st' h')
            items ⟨p :: st.visited, st.files⟩ h

theorem scrapeDir_files_binfree (pages : Str → Option (List DirItem)) (isBin : Str → Bool)
    (maxDepth depth : Nat) (p : Str) (st : ScrapeSt)
    (h : ∀ q ∈ st.files, isBin q = false) :
    ∀ q ∈ (scrapeDir pages isBin maxDepth depth p st).files, isBin q = false :=
  scrapeDir_binfree_gas pages isBin maxDepth (maxDepth + 1 - depth) depth le_rfl p st h

theorem mem_capFiles (l : List Str) (p : Str) (h : p ∈ capFiles l) : p ∈ l := by
  unfold capFiles at h
  by_cases hl : 100 < l.length
  · rw [if_pos hl] at h
    exact List.take_subset _ _ h
  · rwa [if_neg hl] at h

theorem apiFiles_binfree (net : Net) :
    ∀ p ∈ apiFiles net, isBinaryFile p = false := by
  intro p hp
  unfold apiFiles at hp
  split at hp
  · split at hp
    · rcases List.mem_map.mp hp with ⟨it, hit, hpath⟩
      have := List.of_mem_filter hit
      simp only [Bool.and_eq_true, Bool.not_eq_true'] at this
      rw [← hpath]
      exact this.2
    · simp at hp
  · simp at hp

theorem commonFiles_binfree : ∀ p ∈ commonFiles, isBinaryFile p = false := by
  decide

theorem getRepositoryFileStructure_binfree (net : Net) :
    ∀ p ∈ getRepositoryFileStructure net, isBinaryFile p = false := by
  intro p hp
  unfold getRepositoryFileStructure getRepositoryFileStructureT at hp
  by_cases ha : (apiFiles net).isEmpty
  · rw [if_pos ha] at hp
    by_cases hs :
        (scrapeDir (net.pages (structureDefaultBranch net)) isBinaryFile 5 0 [] ⟨[], []⟩).files.isEmpty
    · rw [if_pos hs] at hp
      have hmem := mem_capFiles _ _ hp
      have := List.of_mem_filter hmem
      exact commonFiles_binfree p (List.mem_of_mem_filter hmem)
    · rw [if_neg hs] at hp
      have hmem := mem_capFiles _ _ hp
      exact scrapeDir_files_binfree _ _ _ _ _ _ (by intro q hq; simp at hq) p hmem
  · rw [if_neg ha] at hp
    exact apiFiles_binfree net p hp

theorem fetchAll_cons (raw : Str → Str → Option Resp) (b p : Str) (l : List Str) :
    fetchAll raw b (p :: l) =
      mergeAgg (processPath raw b ⟨[], 0, 0⟩ p) (fetchAll raw b l) := by
  simp only [fetchAll, List.foldl_cons]
  rw [foldl_processPath]
  rfl

theorem fetchAll_spec (raw : Str → Str → Option Resp) (b : Str) :
    ∀ files : List Str,
      fetchAll raw b files =
        ⟨(files.map (perFileContent raw b)).flatten,
          (files.filter (keptFile raw b)).length,
          (files.map (perFileLines raw b)).sum⟩ := by
  intro files
  induction files with
  | nil => simp [fetchAll]
  | cons p l ih =>
    rw [fetchAll_cons, ih]
    by_cases hb : isBinaryFile p
    · have h1 : processPath raw b ⟨[], 0, 0⟩ p = ⟨[], 0, 0⟩ := by
        unfold processPath; rw [if_pos hb]
      have h2 : perFileContent raw b p = [] := by
        unfold perFileContent; rw [if_pos hb]
      have h3 : perFileLines raw b p = 0 := by
        unfold perFileLines; rw [if_pos hb]
      have h4 : keptFile raw b p = false := by
        unfold keptFile; rw [hb]; rfl
      simp [h1, h2, h3, h4, mergeAgg]
    · have hne : (getFileContent raw p (some b)).content ≠ [] :=
        getFileContent_content_ne raw p (some b)
      have hemp : (getFileContent raw p (some b)).content.isEmpty = false := by
        cases hcon : (getFileContent raw p (some b)).content with
        | nil => exact absurd hcon hne
        | cons a l => rfl
      have h1 : processPath raw b ⟨[], 0, 0⟩ p =
          ⟨(getFileContent raw p (some b)).content, 1,
            (getFileContent raw p (some b)).lineCount⟩ := by
        simp [processPath, hb, hemp]
      have h2 : perFileContent raw b p = (getFileContent raw p (some b)).content := by
        unfold perFileContent; rw [if_neg (by simp [hb])]
      have h3 : perFileLines raw b p = (getFileContent raw p (some b)).lineCount := by
        unfold perFileLines; rw [if_neg (by simp [hb])]
      have h4 : keptFile raw b p = true := by
        unfold keptFile
        rw [hemp]
        simp [hb]
      simp [h1, h2, h3, h4, mergeAgg, Nat.add_comm]

theorem probeFirst_all_fail (probe : Str → Option Nat)
    (h : ∀ b, probe b ≠ some 200) :
    ∀ bs : List Str, probeFirst probe bs = ("main").data := by
  intro bs
  induction bs with
  | nil => rfl
  | cons b rest ih =>
    unfold probeFirst
    rw [if_neg (h b), ih]

theorem determineDefaultBranch_all_fail (net : Net)
    (hland : ∀ r, net.landing = some r → r.status ≠ 200)
    (hprobe : ∀ b, net.probeReadme b ≠ some 200) :
    determineDefaultBranch net = ("main").data := by
  cases hl : net.landing with
  | none => simp [determineDefaultBranch, inspectLanding, hl]
  | some r =>
    have hs := hland r hl
    simp only [determineDefaultBranch, inspectLanding, hl, hs, if_false]
    exact probeFirst_all_fail _ hprobe _

theorem tryBranches_all_fail (raw : Str → Str → Option Resp) (p : Str)
    (hfail : ∀ b r, raw b p = some r → r.status ≠ 200) :
    ∀ bs : List Str, tryBranches raw p bs = ⟨notRetrievedPlaceholder p, 1⟩ := by
  intro bs
  induction bs with
  | nil => rfl
  | cons b rest ih =>
    cases hr : raw b p with
    | none => simpa only [tryBranches, hr] using ih
    | some r =>
      simp only [tryBranches, hr]
      rw [if_neg (hfail b r hr)]
      exact ih

theorem notRetrievedPlaceholder_ne_nil (p : Str) : notRetrievedPlaceholder p ≠ [] := by
  simp [notRetrievedPlaceholder, fileHeader]

/-- Claim C10: for every oracle, path and branch argument, `getFileContent`
returns a record with non-empty content (a path header is always prefixed
and every error or binary branch yields a non-empty placeholder) and a
`lineCount` of at least 1 (splitting even the empty string on newlines
yields one element); consequently every fetched non-binary path increments
the aggregate `fileCount`. -/
theorem getFileContent_nonempty_and_counted
    (raw : Str → Str → Option Resp) (p : Str) (branch : Option Str)
    (b : Str) (agg : Agg) :
    (getFileContent raw p branch).content ≠ [] ∧
    1 ≤ (getFileContent raw p branch).lineCount ∧
    (isBinaryFile p = false →
      (processPath raw b agg p).fileCount = agg.fileCount + 1) := by
  refine ⟨getFileContent_content_ne raw p branch,
    getFileContent_lineCount_pos raw p branch, ?_⟩
  intro hb
  have hne := getFileContent_content_ne raw p (some b)
  have hemp : (getFileContent raw p (some b)).content.isEmpty = false := by
    cases hcon : (getFileContent raw p (some b)).content with
    | nil => exact absurd hcon hne
    | cons a l => rfl
  simp [processPath, hb, hemp]

theorem getFileContent_nonempty_and_counted_witness :
    (getFileContent (fun _ _ => none) (("a.txt").data) none).content ≠ [] ∧
    (processPath (fun _ _ => none) (("main").data) ⟨[], 0, 0⟩
      (("a.txt").data)).fileCount = 1 := by
  have h := getFileContent_nonempty_and_counted (fun _ _ => none)
    (("a.txt").data) none (("main").data) ⟨[], 0, 0⟩
  exact ⟨h.1, h.2.2 (by decide)⟩

/-- Claim C1: when the raw fetch of every candidate branch errors or answers a
non-200 status, `getFileContent` returns the one-line `could not be
retrieved` placeholder with `lineCount = 1` instead of raising; the
`FetchAll` loop appends that placeholder and continues: it is a fold whose
result over a concatenation is the merge of the two halves, so no per-file
failure aborts the remaining files. -/
theorem getFileContent_failure_placeholder
    (raw : Str → Str → Option Resp) (p : Str) (branch : Option Str)
    (b0 : Str) (agg : Agg)
    (hfail : ∀ b r, raw b p = some r → r.status ≠ 200) :
    getFileContent raw p branch = ⟨notRetrievedPlaceholder p, 1⟩ ∧
    (isBinaryFile p = false →
      processPath raw b0 agg p =
        ⟨agg.content ++ notRetrievedPlaceholder p, agg.fileCount + 1,
          agg.lineCount + 1⟩) ∧
    (∀ l1 l2 : List Str, fetchAll raw b0 (l1 ++ l2) =
      mergeAgg (fetchAll raw b0 l1) (fetchAll raw b0 l2)) := by
  have hgf : ∀ br : Option Str, getFileContent raw p br = ⟨notRetrievedPlaceholder p, 1⟩ :=
    fun br => tryBranches_all_fail raw p hfail _
  refine ⟨hgf branch, ?_, fun l1 l2 => fetchAll_append raw b0 l1 l2⟩
  intro hb
  have hemp : (notRetrievedPlaceholder p).isEmpty = false := by
    cases hcon : notRetrievedPlaceholder p with
    | nil => exact absurd hcon (notRetrievedPlaceholder_ne_nil p)
    | cons a l => rfl
  simp [processPath, hb, hgf (some b0), hemp]

theorem getFileContent_failure_placeholder_witness :
    getFileContent (fun _ _ => none) (("src/app.ts").data) (some (("main").data)) =
      ⟨notRetrievedPlaceholder (("src/app.ts").data), 1⟩ ∧
    fetchAll (fun _ _ => none) (("main").data)
        ([("a.md").data] ++ [("b.md").data]) =
      mergeAgg (fetchAll (fun _ _ => none) (("main").data) [("a.md").data])
        (fetchAll (fun _ _ => none) (("main").data) [("b.md").data]) := by
  have h := getFileContent_failure_placeholder (fun _ _ => none)
    (("src/app.ts").data) (some (("main").data)) (("main").data) ⟨[], 0, 0⟩
    (by intro b r hr; exact Option.noConfusion hr)
  exact ⟨h.1, h.2.2 [("a.md").data] [("b.md").data]⟩

/-- Claim C4: on a successful fetch, `lineCount` is the newline-delimited
line count of the original content even when the emitted content is truncated;
at or under 2000 lines the content is emitted in full; over 2000 lines
the emitted body splits back into exactly the first 2000 original lines
followed by the one-line truncation notice naming 2000 and the total. -/
theorem getFileContent_truncation_policy (raw : Str → Str → Option Resp)
    (b p content : Str) (h : raw b p = some ⟨200, some content⟩) :
    (getFileContent raw p (some b)).lineCount = (splitNl content).length ∧
    ((splitNl content).length ≤ 2000 →
      (getFileContent raw p (some b)).content =
        fileHeader p ++ content ++ ("\n").data ++ ("\n").data) ∧
    (2000 < (splitNl content).length →
      (getFileContent raw p (some b)).content =
        fileHeader p ++ joinNl ((splitNl content).take 2000) ++ ("\n").data ++
          ("\n# File truncated: showing 2000 of ").data ++
          (Nat.repr (splitNl content).length).data ++ (" lines\n").data ++
          ("\n").data ∧
      splitNl (joinNl ((splitNl content).take 2000)) =
        (splitNl content).take 2000) := by
  have hgf : getFileContent raw p (some b) = formatFetched p content := by
    simp [getFileContent, tryBranches, h]
  rw [hgf]
  refine ⟨formatFetched_lineCount p content, ?_, ?_⟩
  · intro hle
    unfold formatFetched
    rw [if_neg (by omega)]
  · intro hgt
    constructor
    · unfold formatFetched
      rw [if_pos hgt]
    · have htake_ne : (splitNl content).take 2000 ≠ [] := by
        have := splitNl_length_pos content
        intro hnil
        have hlen : min 2000 (splitNl content).length = 0 := by
          rw [← List.length_take, hnil]
          rfl
        omega
      exact splitNl_joinNl _ htake_ne
        (fun l hl => mem_splitNl_no_nl content l (List.take_subset _ _ hl))

theorem getFileContent_truncation_policy_witness :
    (getFileContent (fun _ _ => some ⟨200, some (("x\ny").data)⟩)
      (("f.txt").data) (some (("main").data))).content =
      fileHeader (("f.txt").data) ++ ("x\ny").data ++ ("\n").data ++ ("\n").data := by
  have h := getFileContent_truncation_policy
    (fun _ _ => some ⟨200, some (("x\ny").data)⟩) (("main").data)
    (("f.txt").data) (("x\ny").data) rfl
  exact h.2.1 (by decide)

/-- Claim C6: the binary classifier of server/routes.ts agrees everywhere
with the spec formulation (binary iff the case-insensitive extension from
the last dot is in the fixed denylist) and returns false for every path
without a dot; being a total Lean function it has no side effects and
never errors. -/
theorem isBinaryFile_matches_denylist_spec (s : Str) :
    isBinaryFile s = isBinarySpec s ∧
    ('.' ∉ s → isBinaryFile s = false) := by
  constructor
  · unfold isBinaryFile isBinarySpec
    rw [fromLastDot_eq_specExtension]
    cases hs : specExtension s with
    | none =>
      have hdot : '.' ∉ s := by
        intro hd
        unfold specExtension at hs
        rw [if_pos hd] at hs
        cases hs
      simpa using map_toLower_not_in_denylist s hdot
    | some e => rfl
  · intro hdot
    unfold isBinaryFile
    rw [fromLastDot_eq_specExtension, specExtension_eq_none s hdot]
    simpa using map_toLower_not_in_denylist s hdot

theorem isBinaryFile_matches_denylist_spec_witness :
    isBinaryFile (("README").data) = false ∧
    isBinaryFile (("logo.PNG").data) = isBinarySpec (("logo.PNG").data) :=
  ⟨(isBinaryFile_matches_denylist_spec (("README").data)).2 (by decide),
    (isBinaryFile_matches_denylist_spec (("logo.PNG").data)).1⟩

/-- Claim C7: the scraping walk terminates on every host structure,
cyclic ones included: recursion past the depth bound returns immediately,
a directory key already in the visited set is never reprocessed, and the
visited set stays duplicate-free, so each directory path is visited at
most once. -/
theorem scrapeDir_terminates_bounded (pages : Str → Option (List DirItem))
    (isBin : Str → Bool) (maxDepth depth : Nat) (p : Str) (st : ScrapeSt)
    (h : st.visited.Nodup) :
    (maxDepth < depth → scrapeDir pages isBin maxDepth depth p st = st) ∧
    (p ∈ st.visited → scrapeDir pages isBin maxDepth depth p st = st) ∧
    (scrapeDir pages isBin maxDepth depth p st).visited.Nodup :=
  ⟨fun hd => scrapeDir_depth_guard pages isBin maxDepth depth p st hd,
    fun hv => scrapeDir_visited_guard pages isBin maxDepth depth p st hv,
    scrapeDir_visited_nodup pages isBin maxDepth depth p st h⟩

theorem scrapeDir_terminates_bounded_witness :
    scrapeDir (fun q => some [⟨q, true⟩]) isBinaryFileScrape 20 21
      (("dir").data) ⟨[], []⟩ = ⟨[], []⟩ ∧
    (scrapeDir (fun q => some [⟨q, true⟩]) isBinaryFileScrape 20 0
      (("dir").data) ⟨[], []⟩).visited.Nodup := by
  have h1 := scrapeDir_terminates_bounded (fun q => some [⟨q, true⟩])
    isBinaryFileScrape 20 21 (("dir").data) ⟨[], []⟩ List.nodup_nil
  have h2 := scrapeDir_terminates_bounded (fun q => some [⟨q, true⟩])
    isBinaryFileScrape 20 0 (("dir").data) ⟨[], []⟩ List.nodup_nil
  exact ⟨h1.1 (by omega), h2.2.2⟩

/-- Claim C8: when the landing page errors or answers non-200 and every
candidate README probe errors or answers non-200, the branch resolver
returns `main`, the first candidate, and the orchestrator proceeds with
that branch instead of aborting. -/
theorem determineDefaultBranch_never_fails (owner repo : Str) (net : Net)
    (hland : ∀ r, net.landing = some r → r.status ≠ 200)
    (hprobe : ∀ b, net.probeReadme b ≠ some 200) :
    determineDefaultBranch net = ("main").data ∧
    branchCandidates.head? = some (determineDefaultBranch net) ∧
    getRepositoryContent owner repo net =
      finishAgg owner repo (fetchAll net.raw (("main").data)
        (dedupFirst (getRepositoryFileStructure net))) := by
  have h := determineDefaultBranch_all_fail net hland hprobe
  refine ⟨h, ?_, ?_⟩
  · rw [h]; rfl
  · unfold getRepositoryContent
    rw [h]

theorem determineDefaultBranch_never_fails_witness :
    determineDefaultBranch netFail = ("main").data ∧
    getRepositoryContent (("acme").data) (("widgets").data) netFail =
      finishAgg (("acme").data) (("widgets").data)
        (fetchAll netFail.raw (("main").data)
          (dedupFirst (getRepositoryFileStructure netFail))) := by
  have h := determineDefaultBranch_never_fails (("acme").data)
    (("widgets").data) netFail
    (fun r hr => Option.noConfusion hr)
    (fun b hb => Option.noConfusion hb)
  exact ⟨h.1, h.2.2⟩

theorem netFail_structureT :
    getRepositoryFileStructureT netFail =
      ([], [Strategy.apiQuery, Strategy.scraping, Strategy.probe]) := by
  have hscrape : scrapeDir (fun _ => none) isBinaryFile 5 0 [] ⟨[], []⟩ =
      (⟨[[]], []⟩ : ScrapeSt) :=
    scrapeDir_pages_none _ _ _ _ _ _ (by omega) (by simp) rfl
  simp [getRepositoryFileStructureT, apiFiles, netFail, hscrape, capFiles]

theorem netFail_structure_empty : getRepositoryFileStructure netFail = [] := by
  unfold getRepositoryFileStructure
  rw [netFail_structureT]

/-- Claim C2 counterexample: the clone-variant acquisition operation
`extractRepository` does let an exception escape to its caller: when the
shallow clone fails it rethrows `Failed to clone repository` instead of
returning a well-formed result. -/
theorem extractRepository_clone_failure_escapes :
    extractRepository (("https://github.com/acme/widgets").data)
      (("acme").data) (("widgets").data)
      ⟨false, [], ("2025-04-11T00:00:00.000Z").data⟩ =
    Except.error (("Failed to clone repository").data) := rfl

/-- Claim C2 (amended): the scraping-variant orchestrator
`getRepositoryContent` never throws: its content is always non-empty, and
when discovery finds nothing it returns the synthetic explanatory message
with sentinel counts `fileCount = 1`, `lineCount = 3`; the clone variant
`extractRepository`, by contrast, propagates clone failure to its HTTP
handler. -/
theorem getRepositoryContent_never_throws (owner repo : Str) (net : Net) :
    (getRepositoryContent owner repo net).content ≠ [] ∧
    (getRepositoryFileStructure net = [] →
      getRepositoryContent owner repo net = ⟨syntheticMsg owner repo, 1, 3⟩) := by
  constructor
  · unfold getRepositoryContent finishAgg
    by_cases he : (fetchAll net.raw (determineDefaultBranch net)
        (dedupFirst (getRepositoryFileStructure net))).content.isEmpty
    · rw [if_pos he]
      simp [syntheticMsg]
    · rw [if_neg he]
      intro hc
      exact he (by simp [hc])
  · intro hd
    unfold getRepositoryContent
    rw [hd]
    rfl

theorem getRepositoryContent_never_throws_witness :
    getRepositoryContent (("acme").data) (("widgets").data) netFail =
      ⟨syntheticMsg (("acme").data) (("widgets").data), 1, 3⟩ :=
  (getRepositoryContent_never_throws (("acme").data) (("widgets").data)
    netFail).2 netFail_structure_empty

/-- Claim C3 counterexample: with the tree query and the scraping walk
both returning empty on this oracle, the clone strategy is still not
invoked — the pipeline instead probes the fixed common-file list, so the
fixed order `tree query, then scraping, then clone` does not hold in this
code path. -/
theorem discovery_clone_not_invoked :
    getRepositoryFileStructureT netFail =
      ([], [Strategy.apiQuery, Strategy.scraping, Strategy.probe]) ∧
    Strategy.cloneWalk ∉ (getRepositoryFileStructureT netFail).2 := by
  refine ⟨netFail_structureT, ?_⟩
  rw [netFail_structureT]
  decide

/-- Claim C3 (amended): the structured tree query is always attempted
first and accepted when non-empty with no further strategy attempted; the
scraping walk is invoked exactly when the tree query produced nothing; the
clone strategy is never part of this fallback chain (it is the sole
strategy of the separate serverless variant); and each strategy is invoked
at most once per request. -/
theorem discovery_strategy_order (net : Net) :
    (getRepositoryFileStructureT net).2.head? = some Strategy.apiQuery ∧
    (apiFiles net ≠ [] →
      getRepositoryFileStructureT net = (apiFiles net, [Strategy.apiQuery])) ∧
    (Strategy.scraping ∈ (getRepositoryFileStructureT net).2 ↔ apiFiles net = []) ∧
    Strategy.cloneWalk ∉ (getRepositoryFileStructureT net).2 ∧
    (∀ s, (getRepositoryFileStructureT net).2.count s ≤ 1) := by
  by_cases ha : (apiFiles net).isEmpty
  · have ha' : apiFiles net = [] := by simpa using ha
    by_cases hs : (scrapeDir (net.pages (structureDefaultBranch net))
        isBinaryFile 5 0 [] ⟨[], []⟩).files.isEmpty
    · have hT : getRepositoryFileStructureT net =
          (capFiles (commonFiles.filter
            (fun f => net.probeFile (structureDefaultBranch net) f == some 200)),
            [Strategy.apiQuery, Strategy.scraping, Strategy.probe]) := by
        unfold getRepositoryFileStructureT
        rw [if_pos ha, if_pos hs]
      rw [hT]
      exact ⟨rfl, fun hne => absurd ha' hne, by simp [ha'], by simp,
        fun s => by cases s <;> simp⟩
    · have hT : getRepositoryFileStructureT net =
          (capFiles (scrapeDir (net.pages (structureDefaultBranch net))
            isBinaryFile 5 0 [] ⟨[], []⟩).files,
            [Strategy.apiQuery, Strategy.scraping]) := by
        unfold getRepositoryFileStructureT
        rw [if_pos ha, if_neg hs]
      rw [hT]
      exact ⟨rfl, fun hne => absurd ha' hne, by simp [ha'], by simp,
        fun s => by cases s <;> simp⟩
  · have ha' : apiFiles net ≠ [] := by simpa using ha
    have hT : getRepositoryFileStructureT net = (apiFiles net, [Strategy.apiQuery]) := by
      unfold getRepositoryFileStructureT
      rw [if_neg ha]
    rw [hT]
    exact ⟨rfl, fun _ => rfl, by simp [ha'], by simp,
      fun s => by cases s <;> simp⟩

theorem discovery_strategy_order_witness :
    getRepositoryFileStructureT netApiOne =
      (apiFiles netApiOne, [Strategy.apiQuery]) :=
  (discovery_strategy_order netApiOne).2.1 (by decide)

/-- Claim C5 counterexample: with the structured query returning
`README.md` and the denylisted `src/a.bin`, the result has `fileCount = 1`
and a content block for `README.md`, but no placeholder block for
`src/a.bin` appears anywhere in the output — the binary path is filtered
at discovery and skipped, not rendered as a placeholder. -/
theorem binary_path_has_no_placeholder_block :
    (getRepositoryContent (("acme").data) (("widgets").data) netApiOne).fileCount = 1 ∧
    containsSub (getRepositoryContent (("acme").data) (("widgets").data)
      netApiOne).content (("src/a.bin").data) = false ∧
    containsSub (getRepositoryContent (("acme").data) (("widgets").data)
      netApiOne).content (("README.md").data) = true := by
  decide

/-- Claim C5 (amended): a path with a denylisted extension never appears
with fetched text content: discovery never returns it (every strategy
filters binaries) and the fetch loop skips it without emitting anything —
no placeholder block either; in the scenario's oracle the result is one
counted file (`README.md`) and no block at all for `src/a.bin`.
Placeholder blocks for binary files exist only in `processFile` of the
clone variant. -/
theorem binary_paths_never_fetched (net : Net) (raw : Str → Str → Option Resp)
    (b : Str) (agg : Agg) (p : Str) (hbin : isBinaryFile p = true) :
    p ∉ getRepositoryFileStructure net ∧ processPath raw b agg p = agg := by
  constructor
  · intro hp
    have hfree := getRepositoryFileStructure_binfree net p hp
    rw [hbin] at hfree
    cases hfree
  · simp [processPath, hbin]

theorem binary_paths_never_fetched_witness :
    (("src/a.bin").data ∉ getRepositoryFileStructure netApiOne) ∧
    processPath (fun _ _ => none) (("main").data) ⟨[], 0, 0⟩
      (("src/a.bin").data) = ⟨[], 0, 0⟩ :=
  binary_paths_never_fetched netApiOne (fun _ _ => none) (("main").data)
    ⟨[], 0, 0⟩ (("src/a.bin").data) (by decide)

/-- Claim C9: when at least one discovered file is non-binary, the
aggregate equals the concatenation of the per-file formatted contents in
discovery order, `fileCount` counts the processed files that produced
non-empty content, and `lineCount` is the sum of the processed files'
reported line counts (placeholders contributing 1 through their
`lineCount`). -/
theorem aggregate_concatenation_and_counts (owner repo : Str) (net : Net)
    (hne : ∃ p ∈ dedupFirst (getRepositoryFileStructure net),
      isBinaryFile p = false) :
    getRepositoryContent owner repo net =
      ⟨((dedupFirst (getRepositoryFileStructure net)).map
          (perFileContent net.raw (determineDefaultBranch net))).flatten,
        ((dedupFirst (getRepositoryFileStructure net)).filter
          (keptFile net.raw (determineDefaultBranch net))).length,
        ((dedupFirst (getRepositoryFileStructure net)).map
          (perFileLines net.raw (determineDefaultBranch net))).sum⟩ := by
  have hagg := fetchAll_spec net.raw (determineDefaultBranch net)
    (dedupFirst (getRepositoryFileStructure net))
  unfold getRepositoryContent
  rw [hagg]
  rcases hne with ⟨p, hp, hbin⟩
  have hpc : perFileContent net.raw (determineDefaultBranch net) p ≠ [] := by
    unfold perFileContent
    rw [if_neg (by simp [hbin])]
    exact getFileContent_content_ne _ _ _
  have hflat : ((dedupFirst (getRepositoryFileStructure net)).map
      (perFileContent net.raw (determineDefaultBranch net))).flatten ≠ [] := by
    intro hfl
    exact hpc (List.flatten_eq_nil_iff.mp hfl _ (List.mem_map_of_mem _ hp))
  unfold finishAgg
  rw [if_neg (by simpa using hflat)]

theorem aggregate_concatenation_and_counts_witness :
    getRepositoryContent (("acme").data) (("widgets").data) netApiOne =
      ⟨((dedupFirst (getRepositoryFileStructure netApiOne)).map
          (perFileContent netApiOne.raw (determineDefaultBranch netApiOne))).flatten,
        ((dedupFirst (getRepositoryFileStructure netApiOne)).filter
          (keptFile netApiOne.raw (determineDefaultBranch netApiOne))).length,
        ((dedupFirst (getRepositoryFileStructure netApiOne)).map
          (perFileLines netApiOne.raw (determineDefaultBranch netApiOne))).sum⟩ :=
  aggregate_concatenation_and_counts (("acme").data) (("widgets").data)
    netApiOne ⟨("README.md").data, by decide, by decide⟩
